import Mathlib

/-!
# Formal model of the Z-Wave scan-analyze-merge pipeline

A shallow embedding of `src/main.rs` of the `zwave_module` repository.

The pipeline: raw byte samples (`u8`, modelled as `ℕ`) are converted to
signal-strength values (`f64`, modelled as `ℝ`) by `analyze_samples`;
each one-second window's maximum strength is compared against the fixed
threshold `50.0`; detected windows contribute one-second intervals which
`merge_intervals` collapses with a gap tolerance of 5 seconds; the final
`SignalData` record carries the frequency, detection flag, running
maximum strength and the serialized interval list.

Modelling conventions:
* machine integers (`u8`, `u64`) become `ℕ`;
* `f64` arithmetic becomes exact real arithmetic (`Real.logb 10` for
  `f64::log10`);
* wall-clock time is idealized: each window takes exactly one second, so
  the window that starts `i` seconds into the scan observes
  `elapsed = i + 1` when it finishes (the Rust code reads `elapsed`
  after the one-second acquisition completes), and a scan of `D` whole
  seconds runs exactly `D` windows;
* `Vec<T>` becomes `List T`; `Iterator::max_by` on a list of strengths
  becomes `listMax?` below (for the values produced here the
  `partial_cmp` tie-breaking of `max_by` is value-irrelevant).
-/

namespace ZWave

/-- The output record, from Rust `struct SignalData`. -/
structure SignalData where
  frequency : ℝ
  is_signal_detected : Bool
  max_signal_strength : ℝ
  zwave_durations : String

/-! ## Interval merging (`merge_intervals`, main.rs lines 194-214) -/

/-- One iteration of the `for &(start, end) in &intervals[1..]` loop body:
given the merged list built so far (always non-empty in context), either
extend its last interval's end in place or append the new interval.
`merged.last_mut().unwrap()` becomes `merged.getLast?`. -/
def mergeStep (merged : List (ℕ × ℕ)) (iv : ℕ × ℕ) : List (ℕ × ℕ) :=
  match merged.getLast? with
  | none => [iv]
  | some last =>
    if iv.1 ≤ last.2 + 5 then merged.dropLast ++ [(last.1, max last.2 iv.2)]
    else merged ++ [iv]

/-- `merge_intervals` from main.rs: sort by start
(`sort_unstable_by(|a, b| a.0.cmp(&b.0))`, modelled by `insertionSort` on
the first component), seed the merged list with the first interval, then
fold the loop body over the rest. -/
def merge_intervals (intervals : List (ℕ × ℕ)) : List (ℕ × ℕ) :=
  match List.insertionSort (fun a b => a.1 ≤ b.1) intervals with
  | [] => []
  | first :: rest => rest.foldl mergeStep [first]

/-- The reference gap-merge algorithm, written from the spec's words
(§4.3): keep a current interval `last`; for each subsequent `(s, e)` in
sorted order, if `s ≤ last.end + GAP` (GAP = 5) extend `last.end` to
`max last.end e`, otherwise emit `last` and continue from `(s, e)`. -/
def mergeRec (last : ℕ × ℕ) : List (ℕ × ℕ) → List (ℕ × ℕ)
  | [] => [last]
  | iv :: rest =>
    if iv.1 ≤ last.2 + 5 then mergeRec (last.1, max last.2 iv.2) rest
    else last :: mergeRec iv rest

/-- The reference algorithm of spec §4.3: empty input gives empty output,
otherwise sort ascending by start and run the gap-merge pass. -/
def merge_reference (l : List (ℕ × ℕ)) : List (ℕ × ℕ) :=
  match List.insertionSort (fun a b => a.1 ≤ b.1) l with
  | [] => []
  | first :: rest => mergeRec first rest

/-! ## Strength analysis (`analyze_samples`, main.rs lines 58-67) -/

/-- `analyze_samples` from main.rs: each raw byte sample `s` is cast to
`f64` and mapped to `20.0 * s.log10()` when `s > 0.0`, else `0.0`.
`f64::log10` is modelled by `Real.logb 10`. -/
noncomputable def analyze_samples (samples : List ℕ) : List ℝ :=
  samples.map (fun s : ℕ => if (0 : ℝ) < (s : ℝ) then 20 * Real.logb 10 (s : ℝ) else 0)

/-! ## Detection (main.rs lines 103-118 and 162-169) -/

/-- `strengths.iter().max_by(|a, b| a.partial_cmp(b) ...)`: `none` on the
empty list, otherwise the maximum value.  The strengths produced by
`analyze_samples` are never NaN, so `partial_cmp` behaves as a total
order and only the maximal value matters. -/
noncomputable def listMax? : List ℝ → Option ℝ
  | [] => none
  | x :: xs => some (xs.foldl max x)

/-- The detection logic shared by both call sites (spec §4.2's `detect`):
the window is detected when the maximum strength exceeds the threshold
(`false` on an empty sequence, as in `map_or(false, ...)`), and the
reported maximum defaults to `0.0` (as in `unwrap_or(&0.0)`). -/
noncomputable def detect (strengths : List ℝ) (threshold : ℝ) : Bool × ℝ :=
  ((listMax? strengths).elim false (fun m => decide (m > threshold)),
   (listMax? strengths).getD 0)

/-! ## The scheduled scan (`run_scan_over_duration`, main.rs 137-192) -/

/-- The mutable loop state of `run_scan_over_duration`: `intervals`,
`max_strength` (initially `0.0`) and `signal_detected` (initially
`false`). -/
structure ScanState where
  intervals : List (ℕ × ℕ)
  max_strength : ℝ
  signal_detected : Bool

/-- The initial loop state of a scheduled scan. -/
def initialScanState : ScanState := ⟨[], 0, false⟩

/-- One iteration of the scheduled-scan loop body (main.rs 158-169),
acting on the strengths of the current window: if the window has a
maximum strength and it exceeds `50.0`, set the detected flag, fold the
strength into the running maximum and push the interval
`(elapsed, elapsed + 1)`; otherwise leave the state untouched. -/
noncomputable def scanStep (elapsed : ℕ) (strengths : List ℝ) (st : ScanState) :
    ScanState :=
  match listMax? strengths with
  | none => st
  | some strength =>
    if strength > 50 then
      { intervals := st.intervals ++ [(elapsed, elapsed + 1)]
        max_strength := max st.max_strength strength
        signal_detected := true }
    else st

/-- The scheduled-scan loop over the per-window strength lists; the
window at 0-based position `i` observes `elapsed = i + 1` (idealized
time, see the header comment). -/
noncomputable def scanLoopAux (elapsed : ℕ) (st : ScanState) :
    List (List ℝ) → ScanState
  | [] => st
  | w :: rest => scanLoopAux (elapsed + 1) (scanStep elapsed w st) rest

/-- The whole scheduled-scan loop, started from the initial state with
the first window finishing at `elapsed = 1`. -/
noncomputable def scanLoop (strengthWindows : List (List ℝ)) : ScanState :=
  scanLoopAux 1 initialScanState strengthWindows

/-- Serialization of the merged interval list (main.rs 173-176):
`format!("{}-{}", start, end)` joined with `","`. -/
def durationsString (merged : List (ℕ × ℕ)) : String :=
  String.intercalate "," (merged.map (fun p => toString p.1 ++ "-" ++ toString p.2))

/-- `run_scan_over_duration` (main.rs 137-192), parametrized by the raw
byte samples of each completed one-second window (a scan of `D` whole
seconds completes `D` windows).  Analyzes each window, runs the loop,
merges the collected intervals, and builds the `SignalData` record with
`frequency = 868_400_000 as f64 / 1_000_000.0`. -/
noncomputable def run_scan_over_duration (windows : List (List ℕ)) : SignalData :=
  let final := scanLoop (windows.map analyze_samples)
  { frequency := 868400000 / 1000000
    is_signal_detected := final.signal_detected
    max_signal_strength := final.max_strength
    zwave_durations := durationsString (merge_intervals final.intervals) }

/-! ## The instant scan (`run_instant_scan`, main.rs 82-135) -/

/-- `run_instant_scan` (main.rs 82-135), parametrized by the raw byte
samples of the single five-second acquisition: one batch through
`analyze_samples`, one maximum, one threshold comparison.
`frequency = frequency as f64` stays in Hz and `zwave_durations` is the
literal placeholder `"5"`. -/
noncomputable def run_instant_scan (raw_samples : List ℕ) : SignalData :=
  let max_strength := listMax? (analyze_samples raw_samples)
  { frequency := 868400000
    is_signal_detected := max_strength.elim false (fun s => decide (s > 50))
    max_signal_strength := max_strength.getD 0
    zwave_durations := "5" }

/-! ## Spec-side maxima used by claim C1 -/

/-- The running maximum as claim C1 states it: every window contributes
its maximum strength, detected or not (an empty window contributes
nothing), starting from `0.0`. -/
noncomputable def allWindowsMax (strengthWindows : List (List ℝ)) : ℝ :=
  strengthWindows.foldl
    (fun m w => match listMax? w with
      | some s => max m s
      | none => m) 0

/-- The running maximum as the code actually computes it: only windows
whose maximum strength exceeds `50.0` contribute, starting from `0.0`. -/
noncomputable def detectedWindowsMax (strengthWindows : List (List ℝ)) : ℝ :=
  strengthWindows.foldl
    (fun m w => match listMax? w with
      | some s => if s > 50 then max m s else m
      | none => m) 0

/-- The loop-with-mutation form and the recursive reference form agree:
folding `mergeStep` starting from `acc ++ [last]` appends exactly
`mergeRec last rest` after `acc`. -/
theorem foldl_mergeStep_eq_mergeRec (rest : List (ℕ × ℕ)) :
    ∀ (acc : List (ℕ × ℕ)) (last : ℕ × ℕ),
      rest.foldl mergeStep (acc ++ [last]) = acc ++ mergeRec last rest := by
  induction rest with
  | nil => intro acc last; simp [mergeRec]
  | cons iv rest ih =>
    intro acc last
    simp only [List.foldl_cons, mergeRec]
    have hstep : mergeStep (acc ++ [last]) iv =
        if iv.1 ≤ last.2 + 5 then acc ++ [(last.1, max last.2 iv.2)]
        else (acc ++ [last]) ++ [iv] := by
      simp [mergeStep, List.getLast?_concat, List.dropLast_concat]
    by_cases h : iv.1 ≤ last.2 + 5
    · rw [hstep, if_pos h, if_pos h, ih acc (last.1, max last.2 iv.2)]
    · rw [hstep, if_neg h, if_neg h, ih (acc ++ [last]) iv]
      simp

/-- Ordering intervals by their start component is total. -/
instance : IsTotal (ℕ × ℕ) (fun a b => a.1 ≤ b.1) :=
  ⟨fun a b => Nat.le_total a.1 b.1⟩

/-- Ordering intervals by their start component is transitive. -/
instance : IsTrans (ℕ × ℕ) (fun a b => a.1 ≤ b.1) :=
  ⟨fun _ _ _ h h' => Nat.le_trans h h'⟩

/-- The first interval emitted by the gap-merge pass starts where the
current interval `last` starts. -/
theorem mergeRec_head_fst (rest : List (ℕ × ℕ)) :
    ∀ last : ℕ × ℕ, ((mergeRec last rest).head?.map Prod.fst) = some last.1 := by
  induction rest with
  | nil => intro last; simp [mergeRec]
  | cons iv rest ih =>
    intro last
    by_cases h : iv.1 ≤ last.2 + 5
    · simpa [mergeRec, h] using ih (last.1, max last.2 iv.2)
    · simp [mergeRec, h]

/-- Gap invariant of the merge pass: if the remaining intervals are
sorted by start and all start at or after `last.1`, then in the output
every adjacent pair is separated by a gap strictly greater than 5. -/
theorem mergeRec_chain_gap (rest : List (ℕ × ℕ)) :
    ∀ last : ℕ × ℕ, (∀ x ∈ rest, last.1 ≤ x.1) →
      List.Pairwise (fun a b : ℕ × ℕ => a.1 ≤ b.1) rest →
      List.Chain' (fun a b : ℕ × ℕ => a.2 + 5 < b.1) (mergeRec last rest) := by
  induction rest with
  | nil => intro last _ _; simp [mergeRec]
  | cons iv rest ih =>
    intro last hge hpw
    rw [List.pairwise_cons] at hpw
    by_cases h : iv.1 ≤ last.2 + 5
    · rw [mergeRec, if_pos h]
      refine ih (last.1, max last.2 iv.2) (fun x hx => ?_) hpw.2
      exact le_trans (hge iv (List.mem_cons_self iv rest)) (hpw.1 x hx)
    · rw [mergeRec, if_neg h]
      rw [List.chain'_cons']
      refine ⟨fun y hy => ?_, ih iv hpw.1 hpw.2⟩
      have hhd := mergeRec_head_fst rest iv
      have : y.1 = iv.1 := by
        cases hh : (mergeRec iv rest).head? with
        | none => rw [hh] at hy; simp at hy
        | some z =>
          rw [hh] at hy hhd
          simp at hy hhd
          rw [← hy]; exact hhd
      omega

/-- Sortedness invariant of the merge pass: under the same hypotheses,
the output is (weakly) ascending by start. -/
theorem mergeRec_chain_le (rest : List (ℕ × ℕ)) :
    ∀ last : ℕ × ℕ, (∀ x ∈ rest, last.1 ≤ x.1) →
      List.Pairwise (fun a b : ℕ × ℕ => a.1 ≤ b.1) rest →
      List.Chain' (fun a b : ℕ × ℕ => a.1 ≤ b.1) (mergeRec last rest) := by
  induction rest with
  | nil => intro last _ _; simp [mergeRec]
  | cons iv rest ih =>
    intro last hge hpw
    rw [List.pairwise_cons] at hpw
    by_cases h : iv.1 ≤ last.2 + 5
    · rw [mergeRec, if_pos h]
      refine ih (last.1, max last.2 iv.2) (fun x hx => ?_) hpw.2
      exact le_trans (hge iv (List.mem_cons_self iv rest)) (hpw.1 x hx)
    · rw [mergeRec, if_neg h]
      rw [List.chain'_cons']
      refine ⟨fun y hy => ?_, ih iv hpw.1 hpw.2⟩
      have hhd := mergeRec_head_fst rest iv
      have : y.1 = iv.1 := by
        cases hh : (mergeRec iv rest).head? with
        | none => rw [hh] at hy; simp at hy
        | some z =>
          rw [hh] at hy hhd
          simp at hy hhd
          rw [← hy]; exact hhd
      rw [this]
      exact hge iv (List.mem_cons_self iv rest)

/-- `merge_intervals` rewritten through the recursive reference pass. -/
theorem merge_intervals_eq_mergeRec (l : List (ℕ × ℕ)) :
    merge_intervals l = merge_reference l := by
  unfold merge_intervals merge_reference
  cases h : List.insertionSort (fun a b : ℕ × ℕ => a.1 ≤ b.1) l with
  | nil => rfl
  | cons first rest =>
    have := foldl_mergeStep_eq_mergeRec rest [] first
    simpa using this

/-- The output of `merge_intervals` is sorted ascending by start. -/
theorem merge_intervals_sorted (l : List (ℕ × ℕ)) :
    List.Sorted (fun a b : ℕ × ℕ => a.1 ≤ b.1) (merge_intervals l) := by
  rw [merge_intervals_eq_mergeRec]
  unfold merge_reference
  have hs := List.sorted_insertionSort (fun a b : ℕ × ℕ => a.1 ≤ b.1) l
  cases h : List.insertionSort (fun a b : ℕ × ℕ => a.1 ≤ b.1) l with
  | nil => simp
  | cons first rest =>
    rw [h] at hs
    rw [List.Sorted, List.pairwise_cons] at hs
    rw [List.Sorted, ← List.chain'_iff_pairwise]
    exact mergeRec_chain_le rest first hs.1 hs.2

/-- Every adjacent pair of output intervals of `merge_intervals` is
separated by a gap strictly greater than 5. -/
theorem merge_intervals_gap (l : List (ℕ × ℕ)) :
    List.Chain' (fun a b : ℕ × ℕ => a.2 + 5 < b.1) (merge_intervals l) := by
  rw [merge_intervals_eq_mergeRec]
  unfold merge_reference
  have hs := List.sorted_insertionSort (fun a b : ℕ × ℕ => a.1 ≤ b.1) l
  cases h : List.insertionSort (fun a b : ℕ × ℕ => a.1 ≤ b.1) l with
  | nil => simp
  | cons first rest =>
    rw [h] at hs
    rw [List.Sorted, List.pairwise_cons] at hs
    exact mergeRec_chain_gap rest first hs.1 hs.2

/-- On a list whose adjacent intervals already have gaps above the
tolerance, the merge pass is the identity. -/
theorem mergeRec_of_chain_gap (rest : List (ℕ × ℕ)) :
    ∀ last : ℕ × ℕ,
      List.Chain' (fun a b : ℕ × ℕ => a.2 + 5 < b.1) (last :: rest) →
      mergeRec last rest = last :: rest := by
  induction rest with
  | nil => intro last _; rfl
  | cons iv rest ih =>
    intro last hch
    rw [List.chain'_cons] at hch
    have h : ¬ iv.1 ≤ last.2 + 5 := by omega
    rw [mergeRec, if_neg h, ih iv hch.2]

/-! ## Numeric facts about the strength conversion -/

/-- `log10 100 = 2`, so a sample of `100` has strength `40`. -/
theorem logb_ten_hundred : Real.logb 10 100 = 2 := by
  have h : (100 : ℝ) = 10 ^ (2 : ℝ) := by
    rw [show (2 : ℝ) = ((2 : ℕ) : ℝ) by norm_num, Real.rpow_natCast]; norm_num
  rw [h, Real.logb_rpow (by norm_num) (by norm_num)]

/-- The strength of the largest byte sample stays below the threshold:
`20 * log10 255 < 50` (because `255² = 65025 < 100000 = 10⁵`). -/
theorem strength_255_lt_50 : 20 * Real.logb 10 255 < 50 := by
  have h : Real.logb 10 255 < 5 / 2 := by
    rw [Real.logb_lt_iff_lt_rpow (by norm_num) (by norm_num)]
    have hpos : (0 : ℝ) ≤ 10 ^ ((5 : ℝ) / 2) :=
      (Real.rpow_pos_of_pos (by norm_num) _).le
    have hsq : ((10 : ℝ) ^ ((5 : ℝ) / 2)) ^ (2 : ℕ) = 10 ^ (5 : ℝ) := by
      rw [← Real.rpow_natCast ((10 : ℝ) ^ ((5 : ℝ) / 2)) 2,
        ← Real.rpow_mul (by norm_num)]
      norm_num
    refine lt_of_pow_lt_pow_left₀ 2 hpos ?_
    rw [hsq, show (5 : ℝ) = ((5 : ℕ) : ℝ) by norm_num, Real.rpow_natCast]
    norm_num
  linarith

/-- The strength of a byte sample `s ≤ 255` lies in
`[0, 20 * log10 255]`, hence strictly below `50`. -/
theorem strength_bounds {s : ℕ} (hs : s ≤ 255) :
    0 ≤ (if (0 : ℝ) < (s : ℝ) then 20 * Real.logb 10 (s : ℝ) else 0) ∧
    (if (0 : ℝ) < (s : ℝ) then 20 * Real.logb 10 (s : ℝ) else 0)
      ≤ 20 * Real.logb 10 255 := by
  have h255 : (0 : ℝ) ≤ Real.logb 10 255 := Real.logb_nonneg (by norm_num) (by norm_num)
  by_cases h : (0 : ℝ) < (s : ℝ)
  · have hs1 : (1 : ℝ) ≤ (s : ℝ) := by
      have : (1 : ℕ) ≤ s := by exact_mod_cast h
      exact_mod_cast this
    have hlognn : (0 : ℝ) ≤ Real.logb 10 (s : ℝ) := Real.logb_nonneg (by norm_num) hs1
    have hmono : Real.logb 10 (s : ℝ) ≤ Real.logb 10 255 :=
      Real.logb_le_logb_of_le (by norm_num) h (by exact_mod_cast hs)
    rw [if_pos h]
    constructor <;> linarith
  · rw [if_neg h]
    constructor <;> linarith

/-- Every strength value of a byte-bounded sample list is in
`[0, 20 * log10 255]`. -/
theorem analyze_samples_bounds {samples : List ℕ}
    (hs : ∀ s ∈ samples, s ≤ 255) :
    ∀ v ∈ analyze_samples samples, 0 ≤ v ∧ v ≤ 20 * Real.logb 10 255 := by
  intro v hv
  have hv' : v ∈ samples.map
      (fun s : ℕ => if (0 : ℝ) < (s : ℝ) then 20 * Real.logb 10 (s : ℝ) else 0) := hv
  obtain ⟨t, htmem, hteq⟩ := List.mem_map.mp hv'
  rw [← hteq]
  exact strength_bounds (hs t htmem)

/-! ## Facts about the maximum of a strength list -/

/-- The fold of `max` over a list is either the seed or an element. -/
theorem foldl_max_mem (xs : List ℝ) :
    ∀ x : ℝ, xs.foldl max x = x ∨ xs.foldl max x ∈ xs := by
  induction xs with
  | nil => intro x; left; rfl
  | cons y xs ih =>
    intro x
    rcases ih (max x y) with h | h
    · rcases max_choice x y with hm | hm
      · left; rw [List.foldl_cons, h, hm]
      · right; rw [List.foldl_cons, h, hm]; exact List.mem_cons_self y xs
    · right
      rw [List.foldl_cons]
      exact List.mem_cons_of_mem y h

/-- The fold of `max` over a list bounds the seed and every element. -/
theorem le_foldl_max (xs : List ℝ) :
    ∀ x : ℝ, x ≤ xs.foldl max x ∧ ∀ y ∈ xs, y ≤ xs.foldl max x := by
  induction xs with
  | nil => intro x; exact ⟨le_refl x, by simp⟩
  | cons z xs ih =>
    intro x
    obtain ⟨h1, h2⟩ := ih (max x z)
    refine ⟨le_trans (le_max_left x z) h1, ?_⟩
    intro y hy
    rcases List.mem_cons.mp hy with rfl | hy
    · exact le_trans (le_max_right x y) h1
    · exact h2 y hy

/-- The computed maximum is an element of the list. -/
theorem listMax?_mem {l : List ℝ} {m : ℝ} (h : listMax? l = some m) : m ∈ l := by
  cases l with
  | nil => simp [listMax?] at h
  | cons x xs =>
    rw [listMax?, Option.some_inj] at h
    rcases foldl_max_mem xs x with h' | h'
    · rw [← h, h']; exact List.mem_cons_self x xs
    · rw [← h]; exact List.mem_cons_of_mem x h'

/-- The computed maximum bounds every element of the list. -/
theorem listMax?_is_max {l : List ℝ} {m : ℝ} (h : listMax? l = some m) :
    ∀ x ∈ l, x ≤ m := by
  cases l with
  | nil => simp [listMax?] at h
  | cons x xs =>
    rw [listMax?, Option.some_inj] at h
    intro y hy
    obtain ⟨h1, h2⟩ := le_foldl_max xs x
    rcases List.mem_cons.mp hy with rfl | hy
    · rw [← h]; exact h1
    · rw [← h]; exact h2 y hy

/-- A non-empty list has a maximum. -/
theorem listMax?_isSome {l : List ℝ} (h : l ≠ []) : ∃ m, listMax? l = some m := by
  cases l with
  | nil => exact absurd rfl h
  | cons x xs => exact ⟨xs.foldl max x, rfl⟩

/-! ## Facts about the scheduled-scan loop -/

/-- When every strength of the window is below the threshold (or the
window is empty), the loop body leaves the state untouched. -/
theorem scanStep_no_detect {strengths : List ℝ}
    (h : ∀ x ∈ strengths, x < 50) (e : ℕ) (st : ScanState) :
    scanStep e strengths st = st := by
  cases hm : listMax? strengths with
  | none => simp only [scanStep, hm]
  | some m =>
    have hlt : m < 50 := h m (listMax?_mem hm)
    simp only [scanStep, hm]
    rw [if_neg (by linarith)]

/-- When every strength of every window is below the threshold, the
whole loop leaves the state untouched. -/
theorem scanLoopAux_no_detect {sws : List (List ℝ)}
    (h : ∀ w ∈ sws, ∀ x ∈ w, x < 50) :
    ∀ (e : ℕ) (st : ScanState), scanLoopAux e st sws = st := by
  induction sws with
  | nil => intro e st; rfl
  | cons w rest ih =>
    intro e st
    rw [scanLoopAux, scanStep_no_detect (h w (List.mem_cons_self w rest)) e st]
    exact ih (fun w' hw' => h w' (List.mem_cons_of_mem w hw')) (e + 1) st

/-- The running-maximum component of one loop iteration: it changes only
when the window's maximum strength exceeds `50`. -/
theorem scanStep_max_strength (e : ℕ) (strengths : List ℝ) (st : ScanState) :
    (scanStep e strengths st).max_strength =
      (match listMax? strengths with
        | some s => if s > 50 then max st.max_strength s else st.max_strength
        | none => st.max_strength) := by
  cases hm : listMax? strengths with
  | none => simp only [scanStep, hm]
  | some m =>
    by_cases h : m > 50
    · simp only [scanStep, hm, if_pos h]
    · simp only [scanStep, hm, if_neg h]

/-- The running-maximum component of the whole loop is the fold of the
per-window update over the windows. -/
theorem scanLoopAux_max_strength (sws : List (List ℝ)) :
    ∀ (e : ℕ) (st : ScanState),
      (scanLoopAux e st sws).max_strength =
        sws.foldl
          (fun m w => match listMax? w with
            | some s => if s > 50 then max m s else m
            | none => m) st.max_strength := by
  induction sws with
  | nil => intro e st; rfl
  | cons w rest ih =>
    intro e st
    rw [scanLoopAux, List.foldl_cons, ih (e + 1), scanStep_max_strength]

/-- A list that is already sorted by start with all adjacent gaps above
the tolerance is a fixed point of `merge_intervals`. -/
theorem merge_intervals_of_sorted_gap (m : List (ℕ × ℕ))
    (hs : List.Sorted (fun a b : ℕ × ℕ => a.1 ≤ b.1) m)
    (hg : List.Chain' (fun a b : ℕ × ℕ => a.2 + 5 < b.1) m) :
    merge_intervals m = m := by
  unfold merge_intervals
  rw [List.Sorted.insertionSort_eq hs]
  cases m with
  | nil => rfl
  | cons first rest =>
    show rest.foldl mergeStep [first] = first :: rest
    have h := foldl_mergeStep_eq_mergeRec rest [] first
    simp only [List.nil_append] at h
    rw [h, mergeRec_of_chain_gap rest first hg]

/-! ## Claim theorems -/

/-- Claim C2: `merge_intervals` equals the reference gap-merge algorithm
of spec §4.3 on every input (empty on empty input, sort ascending by
start, seed with the first interval, extend the last interval's end to
`max last.end end` when `start ≤ last.end + 5`, else append); in
particular `merge([(0,1),(2,3)]) = [(0,3)]` and
`merge([(0,1),(10,11)]) = [(0,1),(10,11)]`. -/
theorem C2_merge_matches_reference :
    (∀ l : List (ℕ × ℕ), merge_intervals l = merge_reference l) ∧
    merge_intervals [] = [] ∧
    merge_intervals [(0, 1), (2, 3)] = [(0, 3)] ∧
    merge_intervals [(0, 1), (10, 11)] = [(0, 1), (10, 11)] :=
  ⟨merge_intervals_eq_mergeRec, rfl, by decide, by decide⟩

/-- Claim C3: for every input list, in any order, the output of
`merge_intervals` is sorted ascending by start, and every pair of
adjacent output intervals satisfies `previous.end + 5 < next.start`. -/
theorem C3_merge_sorted_and_gapped (l : List (ℕ × ℕ)) :
    List.Sorted (fun a b : ℕ × ℕ => a.1 ≤ b.1) (merge_intervals l) ∧
    List.Chain' (fun a b : ℕ × ℕ => a.2 + 5 < b.1) (merge_intervals l) :=
  ⟨merge_intervals_sorted l, merge_intervals_gap l⟩

/-- Claim C4: `merge_intervals` is idempotent. -/
theorem C4_merge_idempotent (l : List (ℕ × ℕ)) :
    merge_intervals (merge_intervals l) = merge_intervals l :=
  merge_intervals_of_sorted_gap (merge_intervals l)
    (merge_intervals_sorted l) (merge_intervals_gap l)

/-- Claim C5: `analyze_samples` maps each sample `s` to `20 * log10 s`
when `s > 0` and to `0` otherwise, preserving length and order; in
particular `analyze([0]) = [0]`, `analyze([1]) = [0]`, and
`analyze([100]) = [40]` (exactly `40` in the real-number model, which is
"approximately 40.0" for the f64 computation). -/
theorem C5_analyze_pointwise :
    (∀ samples : List ℕ, (analyze_samples samples).length = samples.length) ∧
    (∀ samples : List ℕ, analyze_samples samples =
      samples.map (fun s : ℕ =>
        if (0 : ℝ) < (s : ℝ) then 20 * Real.logb 10 (s : ℝ) else 0)) ∧
    analyze_samples [0] = [0] ∧
    analyze_samples [1] = [0] ∧
    analyze_samples [100] = [40] := by
  refine ⟨fun samples => by simp [analyze_samples], fun samples => rfl, ?_, ?_, ?_⟩
  · simp [analyze_samples]
  · simp [analyze_samples]
  · simp [analyze_samples, logb_ten_hundred]
    norm_num [logb_ten_hundred]

/-- Claim C6: an empty strength sequence never reports a detection: the
shared detection logic yields `(false, 0)` for every threshold, the
scheduled-scan loop body leaves its state untouched (no interval
appended, no contribution to the running maximum, flag unchanged), and
the instant scan on an empty sample list reports no detection and a
maximum of `0`. -/
theorem C6_empty_window_not_detected :
    (∀ t : ℝ, detect [] t = (false, 0)) ∧
    (∀ (e : ℕ) (st : ScanState), scanStep e [] st = st) ∧
    (run_instant_scan []).is_signal_detected = false ∧
    (run_instant_scan []).max_signal_strength = 0 := by
  refine ⟨fun t => rfl, fun e st => rfl, rfl, rfl⟩

/-- Claim C7: on a non-empty strength sequence the detection logic
returns the maximum of the sequence, reports detected exactly when that
maximum exceeds the threshold, is the logic both call sites apply with
the fixed threshold `50.0`, and `detect([10,60,5], 50) = (true, 60)`. -/
theorem C7_detect_max_threshold (l : List ℝ) (hl : l ≠ []) :
    ((detect l 50).2 ∈ l ∧ ∀ x ∈ l, x ≤ (detect l 50).2) ∧
    ((detect l 50).1 = true ↔ (detect l 50).2 > 50) ∧
    (∀ (e : ℕ) (st : ScanState),
      (scanStep e l st).signal_detected = (st.signal_detected || (detect l 50).1)) ∧
    (∀ raw : List ℕ, analyze_samples raw = l →
      (run_instant_scan raw).is_signal_detected = (detect l 50).1) ∧
    detect [10, 60, 5] 50 = (true, 60) := by
  obtain ⟨m, hm⟩ := listMax?_isSome hl
  have h2 : (detect l 50).2 = m := by simp [detect, hm]
  refine ⟨⟨?_, ?_⟩, ?_, ?_, ?_, ?_⟩
  · rw [h2]; exact listMax?_mem hm
  · rw [h2]; exact listMax?_is_max hm
  · simp [detect, hm, h2]
  · intro e st
    by_cases h : m > 50
    · simp [scanStep, detect, hm, h]
    · simp [scanStep, detect, hm, h]
  · intro raw hraw
    simp [run_instant_scan, detect, hraw]
  · simp [detect, listMax?]
    norm_num

/-- Claim C7 witness: the general statement applied to the concrete
non-empty sequence `[10, 60, 5]`. -/
theorem C7_witness :
    ([10, 60, 5] : List ℝ) ≠ [] ∧
    ((((detect [10, 60, 5] 50).2 ∈ ([10, 60, 5] : List ℝ) ∧
        ∀ x ∈ ([10, 60, 5] : List ℝ), x ≤ (detect [10, 60, 5] 50).2) ∧
      ((detect [10, 60, 5] 50).1 = true ↔ (detect [10, 60, 5] 50).2 > 50) ∧
      (∀ (e : ℕ) (st : ScanState),
        (scanStep e [10, 60, 5] st).signal_detected =
          (st.signal_detected || (detect [10, 60, 5] 50).1)) ∧
      (∀ raw : List ℕ, analyze_samples raw = [10, 60, 5] →
        (run_instant_scan raw).is_signal_detected = (detect [10, 60, 5] 50).1) ∧
      detect [10, 60, 5] 50 = (true, 60))) :=
  ⟨by simp, C7_detect_max_threshold [10, 60, 5] (by simp)⟩

/-- Claim C9: the `frequency` field is `868.4` (MHz, the fixed Hz value
divided by 1,000,000) for every scheduled scan but `868400000` (raw Hz)
for every instant scan — the unit inconsistency is preserved. -/
theorem C9_frequency_unit_mismatch :
    (∀ windows : List (List ℕ),
      (run_scan_over_duration windows).frequency = 868.4) ∧
    (∀ samples : List ℕ, (run_instant_scan samples).frequency = 868400000) ∧
    (868.4 : ℝ) = 868400000 / 1000000 := by
  refine ⟨fun windows => ?_, fun samples => rfl, by norm_num⟩
  show (868400000 : ℝ) / 1000000 = 868.4
  norm_num

/-- Claim C1 counterexample: a single window with the sample `100` has
window maximum `40`, which is below the threshold, so the code leaves
`max_strength` at `0.0` — while the claimed running maximum over all
windows (detected or not, initial value `0.0`) is `40`.  The claim as
stated is therefore false at `windows = [[100]]`. -/
theorem C1_counterexample :
    (run_scan_over_duration [[100]]).max_signal_strength = 0 ∧
    allWindowsMax (List.map analyze_samples [[100]]) = 40 ∧
    (0 : ℝ) ≠ 40 := by
  refine ⟨?_, ?_, by norm_num⟩
  · show (scanLoop (List.map analyze_samples [[100]])).max_strength = 0
    simp [scanLoop, scanLoopAux, scanStep, analyze_samples, listMax?,
      initialScanState, logb_ten_hundred]
    norm_num [logb_ten_hundred]
  · simp [allWindowsMax, analyze_samples, listMax?, logb_ten_hundred]
    norm_num [logb_ten_hundred]

/-- Claim C1 as amended: the running maximum is updated as
`scanMax = max(scanMax, windowMax)` only for windows whose maximum
strength exceeds `50.0` (non-detected windows leave it unchanged), and
`max_signal_strength` equals this maximum over the detected windows'
maxima, with initial value `0.0`. -/
theorem C1_amended_max_over_detected_windows (windows : List (List ℕ)) :
    (∀ (e : ℕ) (w : List ℝ) (st : ScanState),
      (scanStep e w st).max_strength =
        (match listMax? w with
          | some m => if m > 50 then max st.max_strength m else st.max_strength
          | none => st.max_strength)) ∧
    (run_scan_over_duration windows).max_signal_strength =
      detectedWindowsMax (windows.map analyze_samples) := by
  refine ⟨scanStep_max_strength, ?_⟩
  show (scanLoop (windows.map analyze_samples)).max_strength = _
  rw [scanLoop, scanLoopAux_max_strength]
  rfl

/-- Claim C8: with ten one-second windows in which windows 2, 3, 4 and 6
(1-based, labelled by their elapsed second) have maximum strength above
the threshold and the others do not, the loop collects the raw intervals
`[(2,3),(3,4),(4,5),(6,7)]` and sets the detected flag; merging yields
`[(2,7)]`, which serializes to `"2-7"`; and the scheduled scan's output
record carries exactly these two computed values. -/
theorem C8_end_to_end_scenario :
    (scanLoop [[0], [60], [60], [60], [0], [60], [0], [0], [0], [0]]).intervals
      = [(2, 3), (3, 4), (4, 5), (6, 7)] ∧
    (scanLoop [[0], [60], [60], [60], [0], [60], [0], [0], [0], [0]]).signal_detected
      = true ∧
    merge_intervals [(2, 3), (3, 4), (4, 5), (6, 7)] = [(2, 7)] ∧
    durationsString [(2, 7)] = "2-7" ∧
    (∀ windows : List (List ℕ),
      (run_scan_over_duration windows).zwave_durations =
        durationsString (merge_intervals
          (scanLoop (windows.map analyze_samples)).intervals) ∧
      (run_scan_over_duration windows).is_signal_detected =
        (scanLoop (windows.map analyze_samples)).signal_detected) := by
  refine ⟨?_, ?_, by decide, by decide, fun windows => ⟨rfl, rfl⟩⟩
  · simp [scanLoop, scanLoopAux, scanStep, listMax?, initialScanState]
    norm_num
  · simp [scanLoop, scanLoopAux, scanStep, listMax?, initialScanState]
    norm_num

/-- Claim C10: since raw samples are bytes (`0..=255`), every strength
value lies in `[0, 20 * log10 255]` and `20 * log10 255 < 50`, so no
window can ever exceed the threshold: the scheduled-scan loop never
changes its state (no interval appended) and reports
`is_signal_detected = false`, `max_signal_strength = 0` and an empty
interval string, and the instant scan reports
`is_signal_detected = false`. -/
theorem C10_threshold_unreachable (windows : List (List ℕ)) (samples : List ℕ)
    (hw : ∀ w ∈ windows, ∀ s ∈ w, s ≤ 255) (hs : ∀ s ∈ samples, s ≤ 255) :
    (∀ v ∈ analyze_samples samples, 0 ≤ v ∧ v ≤ 20 * Real.logb 10 255) ∧
    20 * Real.logb 10 255 < 50 ∧
    scanLoop (windows.map analyze_samples) = initialScanState ∧
    (run_scan_over_duration windows).is_signal_detected = false ∧
    (run_scan_over_duration windows).max_signal_strength = 0 ∧
    (run_scan_over_duration windows).zwave_durations = "" ∧
    (run_instant_scan samples).is_signal_detected = false := by
  have hall : ∀ w ∈ windows.map analyze_samples, ∀ x ∈ w, x < 50 := by
    intro w hw' x hx
    obtain ⟨w0, hw0, rfl⟩ := List.mem_map.mp hw'
    have hb := analyze_samples_bounds (hw w0 hw0) x hx
    linarith [strength_255_lt_50]
  have hloop : scanLoop (windows.map analyze_samples) = initialScanState :=
    scanLoopAux_no_detect hall 1 initialScanState
  refine ⟨analyze_samples_bounds hs, strength_255_lt_50, hloop, ?_, ?_, ?_, ?_⟩
  · show (scanLoop (windows.map analyze_samples)).signal_detected = false
    rw [hloop]; rfl
  · show (scanLoop (windows.map analyze_samples)).max_strength = 0
    rw [hloop]; rfl
  · show durationsString (merge_intervals
      (scanLoop (windows.map analyze_samples)).intervals) = ""
    rw [hloop]; rfl
  · show (listMax? (analyze_samples samples)).elim false
      (fun s => decide (s > 50)) = false
    cases hm : listMax? (analyze_samples samples) with
    | none => rfl
    | some m =>
      have hb := analyze_samples_bounds hs m (listMax?_mem hm)
      have hlt : m < 50 := by linarith [strength_255_lt_50]
      simp only [Option.elim, decide_eq_false_iff_not]
      exact fun h => absurd h (by linarith)

/-- Claim C10 witness: the theorem applied to the concrete byte-bounded
inputs `windows = [[255]]` and `samples = [255]`. -/
theorem C10_witness :
    ((∀ w ∈ ([[255]] : List (List ℕ)), ∀ s ∈ w, s ≤ 255) ∧
      (∀ s ∈ ([255] : List ℕ), s ≤ 255)) ∧
    ((∀ v ∈ analyze_samples [255], 0 ≤ v ∧ v ≤ 20 * Real.logb 10 255) ∧
      20 * Real.logb 10 255 < 50 ∧
      scanLoop (List.map analyze_samples [[255]]) = initialScanState ∧
      (run_scan_over_duration [[255]]).is_signal_detected = false ∧
      (run_scan_over_duration [[255]]).max_signal_strength = 0 ∧
      (run_scan_over_duration [[255]]).zwave_durations = "" ∧
      (run_instant_scan [255]).is_signal_detected = false) :=
  ⟨⟨by decide, by decide⟩,
    C10_threshold_unreachable [[255]] [255] (by decide) (by decide)⟩

end ZWave
